import Mathlib

/-!
Verification of the NepidemiX core: a shallow embedding of the
rule-based scripted process engine (`nepidemix/process.py`), the
simulation stepping loop (`nepidemix/simulation.py`), and the linked
counter utility (`nepidemix/utilities/linkedcounter.py`), together with
theorems settling the specified behavioural claims.

Conventions of the embedding:
* Python dictionaries whose insertion behaviour matters are embedded as
  association lists (`List (String × _)`) with first-match lookup and
  replace-first-or-append assignment, matching Python dict semantics on
  unique keys.
* Python `frozenset(d.items())` state keys are embedded as
  `Finset (String × String)`.
* Python floats are embedded as `ℚ`; counter values as `ℤ`.
* Code that can raise (`KeyError`, `numpy.max` of an empty sequence)
  is embedded with `Option`, `none` marking the raising executions.
-/

set_option autoImplicit false

namespace NepidemiX

/-! ### LinkedCounter (`nepidemix/utilities/linkedcounter.py`)

A family of counters is embedded as a value store `Nat → ℤ` (counter
identity → its `counter` field) together with a static link structure
`links : Nat → List Nat` giving, for each counter, the list
`self.linkedCounters` fixed at construction. -/

/-- Add `d` to the single counter `i` of the store (one `c.counter += other`). -/
def lcBump (st : Nat → ℤ) (i : Nat) (d : ℤ) : Nat → ℤ :=
  fun j => if j = i then st j + d else st j

/-- Embedding of `LinkedCounter.__iadd__` (linkedcounter.py lines 93-97):
`self.counter += other` followed by `c.counter += other` for every `c`
in `self.linkedCounters`.  (`__isub__` is the same with `d` negated.) -/
def lcIadd (links : Nat → List Nat) (st : Nat → ℤ) (i : Nat) (d : ℤ) : Nat → ℤ :=
  (links i).foldl (fun acc c => lcBump acc c d) (lcBump st i d)

theorem lcBump_apply (st : Nat → ℤ) (i : Nat) (d : ℤ) (j : Nat) :
    lcBump st i d j = st j + if j = i then d else 0 := by
  by_cases h : j = i <;> simp [lcBump, h]

theorem foldl_lcBump_apply (l : List Nat) (st : Nat → ℤ) (d : ℤ) (j : Nat) :
    (l.foldl (fun acc c => lcBump acc c d) st) j = st j + d * l.count j := by
  induction l generalizing st with
  | nil => simp
  | cons c rest ih =>
      rw [List.foldl_cons, ih, lcBump_apply, List.count_cons]
      push_cast
      by_cases h : j = c
      · simp only [h, if_true, beq_self_eq_true, if_pos]
        ring
      · simp only [beq_iff_eq, h, if_neg, Ne.symm h, if_false]
        ring

/-- C4: `c2 = LinkedCounter(5, [c1])` with `c1 = LinkedCounter(10, [])`:
after `c2 += 3` we have `c1.counter = 13` and `c2.counter = 8`; a
subsequent `c1 += 1` gives `c1.counter = 14` leaving `c2.counter = 8`.
In general an increment of counter `i` by `d` changes any counter `j` by
`d` times the multiplicity of `j` in `{i} ∪ links i`: propagation reaches
the link list exactly one level deep and links are directional. -/
theorem c4_linked_counter :
    (∀ (links : Nat → List Nat) (st : Nat → ℤ) (i : Nat) (d : ℤ) (j : Nat),
      lcIadd links st i d j
        = st j + d * ((if j = i then 1 else 0) + (links i).count j)) ∧
    (let links : Nat → List Nat := fun i => if i = 1 then [0] else []
     let st0 : Nat → ℤ := fun i => if i = 0 then 10 else if i = 1 then 5 else 0
     let st1 := lcIadd links st0 1 3
     let st2 := lcIadd links st1 0 1
     st1 0 = 13 ∧ st1 1 = 8 ∧ st2 0 = 14 ∧ st2 1 = 8) := by
  constructor
  · intro links st i d j
    rw [lcIadd, foldl_lcBump_apply, lcBump_apply]
    by_cases h : j = i
    · subst h
      rw [if_pos rfl, if_pos rfl]
      ring
    · rw [if_neg h, if_neg h]
      ring
  · refine ⟨by decide, by decide, by decide, by decide⟩

/-! ### Timed attribute values (`process.py`, class `_TimedState`)

`_TimedState` wraps an attribute value together with the simulation time
at which it was assigned. -/

/-- Embedding of `_TimedState` (process.py lines 1806-1863): a wrapped
string `value` plus the assignment `time`. -/
structure TimedVal where
  value : String
  time : ℚ
deriving DecidableEq

/-- Embedding of `_TimedState.__eq__` for a non-`_TimedState` argument
(the branch `type(other) is type(self)` not taken): compares the wrapped
value with the bare argument. -/
def tsEqBare (a : TimedVal) (s : String) : Bool :=
  a.value == s

/-- Embedding of `_TimedState.__eq__` when `other` is itself a
`_TimedState`: the code rebinds `other = self.value` and compares
`self.value == other`, i.e. `self.value == self.value`. -/
def tsEqTimed (a : TimedVal) (_b : TimedVal) : Bool :=
  a.value == a.value

/-- Embedding of `_TimedState.__hash__`: the hash of the wrapped value. -/
def tsHash (a : TimedVal) : UInt64 :=
  a.value.hash

/-- C9: a timed attribute value compares equal to the bare wrapped value
(and, more generally, its comparison with any bare string ignores the
timestamp), compares equal to another wrapper holding the same value, and
hashes identically to the bare value, so frozen-set keyed rule-table and
counter lookups match a node regardless of the timestamps carried by its
attribute values. -/
theorem c9_timed_state_transparent :
    ∀ (v : String) (t t' : ℚ),
      tsEqBare ⟨v, t⟩ v = true ∧
      (∀ s : String, tsEqBare ⟨v, t⟩ s = (v == s)) ∧
      tsEqTimed ⟨v, t⟩ ⟨v, t'⟩ = true ∧
      tsHash ⟨v, t⟩ = v.hash := by
  intro v t t'
  refine ⟨?_, fun s => rfl, ?_, rfl⟩
  · simp [tsEqBare]
  · simp [tsEqTimed]

/-! ### Association-list embedding of Python dictionaries -/

/-- First-match lookup in an association list (Python `d[k]` / `d.get(k)`;
`none` models a missing key). -/
def lookupA {β : Type} : List (String × β) → String → Option β
  | [], _ => none
  | (k, v) :: rest, a => if k = a then some v else lookupA rest a

/-- Python dict assignment `d[k] = v`: replace the first binding of `k`,
or append a new binding. -/
def setA {β : Type} : List (String × β) → String → β → List (String × β)
  | [], a, c => [(a, c)]
  | (k, v) :: rest, a, c => if k = a then (a, c) :: rest else (k, v) :: setA rest a c

theorem lookupA_setA_self {β : Type} (d : List (String × β)) (a : String) (c : β) :
    lookupA (setA d a c) a = some c := by
  induction d with
  | nil => simp [setA, lookupA]
  | cons p rest ih =>
      by_cases h : p.1 = a
      · simp [setA, h, lookupA]
      · simp [setA, h, lookupA, ih]

theorem lookupA_setA_ne {β : Type} (d : List (String × β)) (a b : String) (c : β)
    (hab : a ≠ b) : lookupA (setA d a c) b = lookupA d b := by
  induction d with
  | nil => simp [setA, lookupA, hab]
  | cons p rest ih =>
      by_cases h : p.1 = a
      · simp [setA, h, lookupA, hab, ih]
      · simp only [setA, if_neg h]
        by_cases h2 : p.1 = b <;> simp [lookupA, h2, ih]

theorem not_mem_of_lookupA_none {β : Type} (d : List (String × β)) (a : String) (v : β)
    (h : lookupA d a = none) : (a, v) ∉ d := by
  induction d with
  | nil => simp
  | cons p rest ih =>
      by_cases hp : p.1 = a
      · simp [lookupA, hp] at h
      · simp only [lookupA, if_neg hp] at h
        intro hm
        rcases List.mem_cons.1 hm with he | hm
        · exact hp (by rw [← he])
        · exact ih h hm

theorem setA_eq_append {β : Type} (d : List (String × β)) (a : String) (c : β)
    (h : lookupA d a = none) : setA d a c = d ++ [(a, c)] := by
  induction d with
  | nil => simp [setA]
  | cons p rest ih =>
      by_cases hp : p.1 = a
      · simp [lookupA, hp] at h
      · simp only [lookupA, if_neg hp] at h
        simp [setA, hp, ih h]

/-! ### ScriptedProcess rule scan (`ScriptedProcess.nodeUpdateRule`)

The per-node candidate scan of process.py lines 1503-1525.  A rule list
entry is a pair (destination update dictionary `dSt`, evaluated rate
`eval(rule, ns)`); expressions are pure per node and iteration, so each
entry carries its evaluated rate.  The single uniform sample
`eventp = numpy.random.random_sample()` drawn before the loop is the
parameter `u`; the accumulated probability `prob` is the parameter `p`,
starting at `0`. -/

/-- Python `node.update(dSt)` (process.py line 1523): assign every
binding of `dSt` into the node's attribute dictionary, in order; only
listed attributes change. -/
def applyUpdate (node dSt : List (String × String)) : List (String × String) :=
  dSt.foldl (fun d p => setA d p.1 p.2) node

/-- The scan loop (process.py lines 1518-1524): `prob += rate * dt`; if
`eventp < prob` apply the destination update and stop; otherwise
continue; if the list is exhausted return the node unchanged. -/
def ruleScanFrom (u dt : ℚ) (node : List (String × String)) :
    List (List (String × String) × ℚ) → ℚ → List (String × String)
  | [], _ => node
  | (dSt, r) :: rest, p =>
      let p2 := p + r * dt
      if u < p2 then applyUpdate node dSt else ruleScanFrom u dt node rest p2

/-- Body of `ScriptedProcess.nodeUpdateRule`: fetch the rule list for the
node's frozen-set state (`self.nodeRules.get(frozenset(...), [])`, line
1516), then scan it with accumulated probability starting at `0`. -/
def nodeUpdateScripted
    (nodeRules : Finset (String × String) → List (List (String × String) × ℚ))
    (u dt : ℚ) (node : List (String × String)) : List (String × String) :=
  ruleScanFrom u dt node (nodeRules node.toFinset) 0

/-- Accumulated probability after scanning the first `j` candidates. -/
def cumProb (rules : List (List (String × String) × ℚ)) (dt : ℚ) (j : Nat) : ℚ :=
  ((rules.take j).map (fun x => x.2 * dt)).sum

theorem cumProb_zero (rules : List (List (String × String) × ℚ)) (dt : ℚ) :
    cumProb rules dt 0 = 0 := rfl

theorem cumProb_cons_succ (d : List (String × String)) (r : ℚ)
    (rest : List (List (String × String) × ℚ)) (dt : ℚ) (j : Nat) :
    cumProb ((d, r) :: rest) dt (j + 1) = r * dt + cumProb rest dt j := by
  simp [cumProb]

theorem ruleScanFrom_no_trigger (u dt : ℚ) (node : List (String × String)) :
    ∀ (rules : List (List (String × String) × ℚ)) (p : ℚ),
      (∀ i < rules.length, ¬ u < p + cumProb rules dt (i + 1)) →
      ruleScanFrom u dt node rules p = node := by
  intro rules
  induction rules with
  | nil => intro p _; rfl
  | cons hd rest ih =>
      intro p h
      obtain ⟨dSt, r⟩ := hd
      have h0 := h 0 (by simp)
      rw [cumProb_cons_succ, cumProb_zero, add_zero] at h0
      rw [ruleScanFrom]
      simp only [if_neg h0]
      apply ih
      intro i hi
      have := h (i + 1) (by simpa using Nat.succ_lt_succ hi)
      rw [cumProb_cons_succ] at this
      intro hc
      exact this (by linarith)

theorem ruleScanFrom_first_trigger (u dt : ℚ) (node : List (String × String)) :
    ∀ (rules : List (List (String × String) × ℚ)) (p : ℚ) (i : Nat)
      (hi : i < rules.length),
      u < p + cumProb rules dt (i + 1) →
      (∀ j < i, ¬ u < p + cumProb rules dt (j + 1)) →
      ruleScanFrom u dt node rules p = applyUpdate node (rules.get ⟨i, hi⟩).1 := by
  intro rules
  induction rules with
  | nil => intro p i hi; simp at hi
  | cons hd rest ih =>
      intro p i hi htrig hbefore
      obtain ⟨dSt, r⟩ := hd
      cases i with
      | zero =>
          rw [cumProb_cons_succ, cumProb_zero, add_zero] at htrig
          rw [ruleScanFrom]
          simp only [if_pos htrig]
          rfl
      | succ i =>
          have h0 := hbefore 0 (Nat.succ_pos i)
          rw [cumProb_cons_succ, cumProb_zero, add_zero] at h0
          rw [ruleScanFrom]
          simp only [if_neg h0]
          rw [cumProb_cons_succ] at htrig
          have hgoal := ih (p + r * dt) i (Nat.lt_of_succ_lt_succ hi)
            (by linarith)
            (by
              intro j hj
              have := hbefore (j + 1) (Nat.succ_lt_succ hj)
              rw [cumProb_cons_succ] at this
              intro hc
              exact this (by linarith))
          exact hgoal

/-- C2: the rule scan of `ScriptedProcess.nodeUpdateRule` draws a single
sample `u` for the whole candidate scan, accumulates
`p += evaluate(expr) * dt` over the node's rule list in declaration
order, applies the destination update of the first entry whose
accumulated probability exceeds `u` and stops; with two candidate rules
both of which would fire under the drawn sample, the first declared one
is applied; if no entry triggers, the node's attribute map is returned
unchanged. -/
theorem c2_rule_scan_first_match
    (nodeRules : Finset (String × String) → List (List (String × String) × ℚ))
    (u dt : ℚ) (node : List (String × String)) :
    (∀ (i : Nat) (hi : i < (nodeRules node.toFinset).length),
        u < cumProb (nodeRules node.toFinset) dt (i + 1) →
        (∀ j < i, ¬ u < cumProb (nodeRules node.toFinset) dt (j + 1)) →
        nodeUpdateScripted nodeRules u dt node
          = applyUpdate node ((nodeRules node.toFinset).get ⟨i, hi⟩).1) ∧
    ((∀ i < (nodeRules node.toFinset).length,
        ¬ u < cumProb (nodeRules node.toFinset) dt (i + 1)) →
      nodeUpdateScripted nodeRules u dt node = node) ∧
    (∀ (d1 : List (String × String)) (r1 : ℚ) (d2 : List (String × String)) (r2 : ℚ)
        (rest : List (List (String × String) × ℚ)),
        nodeRules node.toFinset = (d1, r1) :: (d2, r2) :: rest →
        u < r1 * dt → u < r1 * dt + r2 * dt →
        nodeUpdateScripted nodeRules u dt node = applyUpdate node d1) := by
  refine ⟨?_, ?_, ?_⟩
  · intro i hi htrig hbefore
    have := ruleScanFrom_first_trigger u dt node (nodeRules node.toFinset) 0 i hi
      (by rwa [zero_add]) (by intro j hj; rw [zero_add]; exact hbefore j hj)
    exact this
  · intro h
    exact ruleScanFrom_no_trigger u dt node (nodeRules node.toFinset) 0
      (by intro i hi; rw [zero_add]; exact h i hi)
  · intro d1 r1 d2 r2 rest hr htrig _
    rw [nodeUpdateScripted, hr]
    show (if u < 0 + r1 * dt then applyUpdate node d1
          else ruleScanFrom u dt node ((d2, r2) :: rest) (0 + r1 * dt))
        = applyUpdate node d1
    rw [zero_add, if_pos htrig]

/-! ### Partial-state expansion (`ScriptedProcess._createAllPossibleSets`)

The attribute dictionary handed to `_createAllPossibleSets` maps
attribute names to either a bare value or a tuple of values; the
reference dictionary maps every legal attribute name to the tuple of its
legal values.  The function enumerates every concrete full state the
dictionary matches, mutating the dictionary in place along the way. -/

/-- An attribute-dictionary value: a bare value or a tuple of values. -/
inductive AttVal
  | single (v : String)
  | tup (vs : List String)
deriving DecidableEq

/-- Normalised value list of an attribute entry, as produced by
process.py lines 1432-1435: a missing entry becomes the whole reference
tuple, a bare value becomes a one-element tuple. -/
def normVals : Option AttVal → List String → List String
  | none, op => op
  | some (AttVal.single v), _ => [v]
  | some (AttVal.tup vs), _ => vs

/-- One pass of the attribute-dictionary mutation of
`_createAllPossibleSets` (process.py lines 1432-1435): fill in a missing
attribute with the reference tuple `op`, then wrap a bare value into a
one-element tuple. -/
def cAPSstep (ad : List (String × AttVal)) (a : String) (op : List String) :
    List (String × AttVal) :=
  let ad1 := match lookupA ad a with
    | none => setA ad a (AttVal.tup op)
    | some _ => ad
  match lookupA ad1 a with
  | some (AttVal.single v) => setA ad1 a (AttVal.tup [v])
  | _ => ad1

/-- The value list iterated by `for c in attDict[a]`. -/
def adVals (ad : List (String × AttVal)) (a : String) : List String :=
  match lookupA ad a with
  | some (AttVal.single v) => [v]
  | some (AttVal.tup vs) => vs
  | none => []

theorem cAPSstep_of_none (ad : List (String × AttVal)) (a : String) (op : List String)
    (h : lookupA ad a = none) : cAPSstep ad a op = setA ad a (AttVal.tup op) := by
  unfold cAPSstep
  rw [h]
  simp [lookupA_setA_self]

theorem cAPSstep_of_single (ad : List (String × AttVal)) (a : String) (op : List String)
    (v : String) (h : lookupA ad a = some (AttVal.single v)) :
    cAPSstep ad a op = setA ad a (AttVal.tup [v]) := by
  unfold cAPSstep
  simp [h]

theorem cAPSstep_of_tup (ad : List (String × AttVal)) (a : String) (op : List String)
    (vs : List String) (h : lookupA ad a = some (AttVal.tup vs)) :
    cAPSstep ad a op = ad := by
  unfold cAPSstep
  simp [h]

theorem lookupA_cAPSstep_self (ad : List (String × AttVal)) (a : String)
    (op : List String) :
    lookupA (cAPSstep ad a op) a = some (AttVal.tup (normVals (lookupA ad a) op)) := by
  cases h : lookupA ad a with
  | none => rw [cAPSstep_of_none ad a op h, lookupA_setA_self, normVals]
  | some av =>
      cases av with
      | single v => rw [cAPSstep_of_single ad a op v h, lookupA_setA_self, normVals]
      | tup vs => rw [cAPSstep_of_tup ad a op vs h, h, normVals]

theorem lookupA_cAPSstep_ne (ad : List (String × AttVal)) (a b : String)
    (op : List String) (hab : a ≠ b) :
    lookupA (cAPSstep ad a op) b = lookupA ad b := by
  cases h : lookupA ad a with
  | none => rw [cAPSstep_of_none ad a op h, lookupA_setA_ne _ _ _ _ hab]
  | some av =>
      cases av with
      | single v => rw [cAPSstep_of_single ad a op v h, lookupA_setA_ne _ _ _ _ hab]
      | tup vs => rw [cAPSstep_of_tup ad a op vs h]

theorem adVals_cAPSstep (ad : List (String × AttVal)) (a : String) (op : List String) :
    adVals (cAPSstep ad a op) a = normVals (lookupA ad a) op := by
  rw [adVals, lookupA_cAPSstep_self]

/-- The main loop of `_createAllPossibleSets` (process.py lines
1429-1450): thread the mutating attribute dictionary and the growing
state list `stlist`; for each reference attribute `(a, op)` the state
list is replaced by one copy per admissible value `c`, each state `d`
extended by the assignment `d[a] = c` (outer loop over values, inner
over states, preserving that order). -/
def cAPSloop : List (String × List String) → List (String × AttVal) →
    List (List (String × String)) →
    List (String × AttVal) × List (List (String × String))
  | [], ad, stlist => (ad, stlist)
  | (a, op) :: rest, ad, stlist =>
      let ad2 := cAPSstep ad a op
      cAPSloop rest ad2
        ((adVals ad2 a).flatMap fun c => stlist.map fun d => setA d a c)

/-- Embedding of `ScriptedProcess._createAllPossibleSets` (process.py
lines 1403-1453).  Returns, in order: the frozen set `oset` of the
dictionary's ORIGINAL items (taken before any mutation, line 1430), the
list of concrete states as frozen sets (line 1453), and the attribute
dictionary as mutated by the call (in Python the argument dictionary is
mutated in place and the mutation persists in the caller). -/
def createAllPossibleSets (ad : List (String × AttVal))
    (ref : List (String × List String)) :
    Finset (String × AttVal) × List (Finset (String × String)) × List (String × AttVal) :=
  let oset := ad.toFinset
  let res := cAPSloop ref ad [[]]
  (oset, res.2.map List.toFinset, res.1)

theorem lookupA_cAPSloop_not_mem (ref : List (String × List String)) :
    ∀ (ad : List (String × AttVal)) (stlist : List (List (String × String)))
      (b : String), b ∉ ref.map Prod.fst →
      lookupA (cAPSloop ref ad stlist).1 b = lookupA ad b := by
  induction ref with
  | nil => intro ad stlist b _; rfl
  | cons hd rest ih =>
      intro ad stlist b hb
      obtain ⟨a, op⟩ := hd
      simp only [List.map_cons, List.mem_cons] at hb
      push_neg at hb
      rw [cAPSloop, ih _ _ b hb.2, lookupA_cAPSstep_ne _ _ _ _ (fun h => hb.1 h.symm)]

theorem lookupA_cAPSloop_mem (ref : List (String × List String)) :
    ∀ (ad : List (String × AttVal)) (stlist : List (List (String × String))),
      (ref.map Prod.fst).Nodup →
      ∀ p ∈ ref, lookupA (cAPSloop ref ad stlist).1 p.1
        = some (AttVal.tup (normVals (lookupA ad p.1) p.2)) := by
  induction ref with
  | nil => intro ad stlist _ p hp; simp at hp
  | cons hd rest ih =>
      intro ad stlist hnd p hp
      obtain ⟨a, op⟩ := hd
      simp only [List.map_cons, List.nodup_cons] at hnd
      rcases List.mem_cons.1 hp with he | hm
      · subst he
        rw [cAPSloop, lookupA_cAPSloop_not_mem _ _ _ _ hnd.1, lookupA_cAPSstep_self]
      · have hne : a ≠ p.1 := by
          intro h
          exact hnd.1 (h ▸ List.mem_map_of_mem Prod.fst hm)
        rw [cAPSloop, ih _ _ hnd.2 p hm, lookupA_cAPSstep_ne _ _ _ _ hne]

theorem length_flatMap_map {α β γ : Type} (l : List α) (st : List β) (f : α → β → γ) :
    (l.flatMap fun c => st.map (f c)).length = l.length * st.length := by
  induction l with
  | nil => simp
  | cons c cs ih =>
      simp only [List.flatMap_cons, List.length_append, List.length_map, ih, List.length_cons]
      ring

theorem toFinset_setA_fresh (d : List (String × String)) (a c : String)
    (h : lookupA d a = none) :
    (setA d a c).toFinset = insert (a, c) d.toFinset := by
  rw [setA_eq_append _ _ _ h, List.toFinset_append]
  simp [Finset.union_comm, Finset.insert_eq]

theorem key_not_mem_toFinset (d : List (String × String)) (a v : String)
    (h : lookupA d a = none) : (a, v) ∉ d.toFinset := by
  rw [List.mem_toFinset]
  exact not_mem_of_lookupA_none d a v h

theorem mem_setA_cases {β : Type} (d : List (String × β)) (a : String) (c : β)
    (q : String × β) (hq : q ∈ setA d a c) : q ∈ d ∨ q = (a, c) := by
  induction d with
  | nil =>
      simp only [setA, List.mem_singleton] at hq
      exact Or.inr hq
  | cons p rest ih =>
      by_cases h : p.1 = a
      · simp only [setA, if_pos h, List.mem_cons] at hq
        rcases hq with he | hm
        · exact Or.inr he
        · exact Or.inl (List.mem_cons_of_mem _ hm)
      · simp only [setA, if_neg h, List.mem_cons] at hq
        rcases hq with he | hm
        · exact Or.inl (he ▸ List.mem_cons_self _ _)
        · rcases ih hm with h1 | h2
          · exact Or.inl (List.mem_cons_of_mem _ h1)
          · exact Or.inr h2

theorem cAPSloop_length_wild (ref : List (String × List String)) :
    ∀ (ad : List (String × AttVal)) (stlist : List (List (String × String))),
      (ref.map Prod.fst).Nodup →
      (∀ p ∈ ref, lookupA ad p.1 = none) →
      (cAPSloop ref ad stlist).2.length
        = stlist.length * (ref.map fun p => p.2.length).prod := by
  induction ref with
  | nil => intro ad stlist _ _; simp [cAPSloop]
  | cons hd rest ih =>
      intro ad stlist hnd hw
      obtain ⟨a, op⟩ := hd
      simp only [List.map_cons, List.nodup_cons] at hnd
      have hwa : lookupA ad a = none := hw (a, op) (List.mem_cons_self _ _)
      have hvals : adVals (cAPSstep ad a op) a = op := by
        rw [adVals_cAPSstep, hwa, normVals]
      have hw2 : ∀ p ∈ rest, lookupA (cAPSstep ad a op) p.1 = none := by
        intro p hp
        have hne : a ≠ p.1 := fun h => hnd.1 (h ▸ List.mem_map_of_mem Prod.fst hp)
        rw [lookupA_cAPSstep_ne _ _ _ _ hne]
        exact hw p (List.mem_cons_of_mem _ hp)
      rw [cAPSloop, hvals, ih _ _ hnd.2 hw2, length_flatMap_map]
      simp only [List.map_cons, List.prod_cons]
      ring

theorem cAPSloop_nodup_wild (ref : List (String × List String)) :
    ∀ (ad : List (String × AttVal)) (stlist : List (List (String × String))),
      (ref.map Prod.fst).Nodup →
      (∀ p ∈ ref, p.2.Nodup) →
      (∀ p ∈ ref, lookupA ad p.1 = none) →
      (∀ d ∈ stlist, ∀ p ∈ ref, lookupA d p.1 = none) →
      (stlist.map List.toFinset).Nodup →
      ((cAPSloop ref ad stlist).2.map List.toFinset).Nodup := by
  induction ref with
  | nil => intro ad stlist _ _ _ _ h; exact h
  | cons hd rest ih =>
      intro ad stlist hnd hops hw hfresh hstart
      obtain ⟨a, op⟩ := hd
      simp only [List.map_cons, List.nodup_cons] at hnd
      have hwa : lookupA ad a = none := hw (a, op) (List.mem_cons_self _ _)
      have hvals : adVals (cAPSstep ad a op) a = op := by
        rw [adVals_cAPSstep, hwa, normVals]
      have hfa : ∀ d ∈ stlist, lookupA d a = none := fun d hd =>
        hfresh d hd (a, op) (List.mem_cons_self _ _)
      have hset : ∀ c : String, ∀ d ∈ stlist,
          (setA d a c).toFinset = insert (a, c) d.toFinset := fun c d hd =>
        toFinset_setA_fresh d a c (hfa d hd)
      have hw2 : ∀ p ∈ rest, lookupA (cAPSstep ad a op) p.1 = none := by
        intro p hp
        have hne : a ≠ p.1 := fun h => hnd.1 (h ▸ List.mem_map_of_mem Prod.fst hp)
        rw [lookupA_cAPSstep_ne _ _ _ _ hne]
        exact hw p (List.mem_cons_of_mem _ hp)
      have hfresh2 : ∀ d ∈ ((adVals (cAPSstep ad a op) a).flatMap
            fun c => stlist.map fun d => setA d a c),
          ∀ p ∈ rest, lookupA d p.1 = none := by
        rw [hvals]
        intro d' hd' p hp
        rcases List.mem_flatMap.1 hd' with ⟨c, _, hdm⟩
        rcases List.mem_map.1 hdm with ⟨d, hds, rfl⟩
        have hne : a ≠ p.1 := fun h => hnd.1 (h ▸ List.mem_map_of_mem Prod.fst hp)
        rw [lookupA_setA_ne _ _ _ _ hne]
        exact hfresh d hds p (List.mem_cons_of_mem _ hp)
      have hnodup2 : (((adVals (cAPSstep ad a op) a).flatMap
            fun c => stlist.map fun d => setA d a c).map List.toFinset).Nodup := by
        rw [hvals, List.map_flatMap]
        rw [List.nodup_flatMap]
        constructor
        · intro c _
          have heq : (stlist.map fun d => setA d a c).map List.toFinset
              = (stlist.map List.toFinset).map (insert (a, c)) := by
            rw [List.map_map, List.map_map]
            refine List.map_congr_left ?_
            intro d hd
            exact hset c d hd
          rw [heq]
          refine List.Nodup.map_on ?_ hstart
          intro x hx y hy hxy
          rcases List.mem_map.1 hx with ⟨dx, hdx, rfl⟩
          rcases List.mem_map.1 hy with ⟨dy, hdy, rfl⟩
          have hax : (a, c) ∉ dx.toFinset := key_not_mem_toFinset dx a c (hfa dx hdx)
          have hay : (a, c) ∉ dy.toFinset := key_not_mem_toFinset dy a c (hfa dy hdy)
          calc dx.toFinset = (insert (a, c) dx.toFinset).erase (a, c) :=
                (Finset.erase_insert hax).symm
            _ = (insert (a, c) dy.toFinset).erase (a, c) := by rw [hxy]
            _ = dy.toFinset := Finset.erase_insert hay
        · have hopnd : op.Nodup := hops (a, op) (List.mem_cons_self _ _)
          refine hopnd.imp ?_
          intro c1 c2 hne
          intro s hs1 hs2
          rcases List.mem_map.1 hs1 with ⟨d1', hd1, rfl⟩
          rcases List.mem_map.1 hs2 with ⟨d2', hd2, heq⟩
          rcases List.mem_map.1 hd1 with ⟨d1, hd1s, rfl⟩
          rcases List.mem_map.1 hd2 with ⟨d2, hd2s, rfl⟩
          rw [hset c1 d1 hd1s, hset c2 d2 hd2s] at heq
          have h1 : (a, c2) ∈ insert (a, c1) d1.toFinset := by
            rw [← heq]
            exact Finset.mem_insert_self _ _
          rcases Finset.mem_insert.1 h1 with he | hm
          · exact hne (congrArg Prod.snd he).symm
          · exact key_not_mem_toFinset d1 a c2 (hfa d1 hd1s) hm
      rw [cAPSloop]
      exact ih _ _ hnd.2 (fun p hp => hops p (List.mem_cons_of_mem _ hp)) hw2 hfresh2 hnodup2

/-- Specification-side description of a concrete full state over the
reference domain: one value chosen from its domain tuple for every
domain attribute, in domain order. -/
inductive Choice : List (String × List String) → List (String × String) → Prop
  | nil : Choice [] []
  | cons {a : String} {op : List String} {c : String}
      {rest : List (String × List String)} {e : List (String × String)} :
      c ∈ op → Choice rest e → Choice ((a, op) :: rest) ((a, c) :: e)

theorem choice_cons_iff (a : String) (op : List String)
    (rest : List (String × List String)) (e' : List (String × String)) :
    Choice ((a, op) :: rest) e' ↔
      ∃ c ∈ op, ∃ e, Choice rest e ∧ e' = (a, c) :: e := by
  constructor
  · intro h
    cases h with
    | cons hc hrest => exact ⟨_, hc, _, hrest, rfl⟩
  · rintro ⟨c, hc, e, he, rfl⟩
    exact Choice.cons hc he

theorem cAPSloop_mem_wild (ref : List (String × List String)) :
    ∀ (ad : List (String × AttVal)) (stlist : List (List (String × String))),
      (ref.map Prod.fst).Nodup →
      (∀ p ∈ ref, lookupA ad p.1 = none) →
      (∀ d ∈ stlist, ∀ p ∈ ref, lookupA d p.1 = none) →
      ∀ s, s ∈ (cAPSloop ref ad stlist).2 ↔
        ∃ d ∈ stlist, ∃ e, Choice ref e ∧ s = d ++ e := by
  induction ref with
  | nil =>
      intro ad stlist _ _ _ s
      constructor
      · intro hs
        refine ⟨s, hs, [], Choice.nil, by simp⟩
      · rintro ⟨d, hd, e, he, rfl⟩
        cases he
        simpa using hd
  | cons hd rest ih =>
      intro ad stlist hnd hw hfresh s
      obtain ⟨a, op⟩ := hd
      simp only [List.map_cons, List.nodup_cons] at hnd
      have hwa : lookupA ad a = none := hw (a, op) (List.mem_cons_self _ _)
      have hvals : adVals (cAPSstep ad a op) a = op := by
        rw [adVals_cAPSstep, hwa, normVals]
      have hfa : ∀ d ∈ stlist, lookupA d a = none := fun d hds =>
        hfresh d hds (a, op) (List.mem_cons_self _ _)
      have hw2 : ∀ p ∈ rest, lookupA (cAPSstep ad a op) p.1 = none := by
        intro p hp
        have hne : a ≠ p.1 := fun h => hnd.1 (h ▸ List.mem_map_of_mem Prod.fst hp)
        rw [lookupA_cAPSstep_ne _ _ _ _ hne]
        exact hw p (List.mem_cons_of_mem _ hp)
      have hfresh2 : ∀ d ∈ ((adVals (cAPSstep ad a op) a).flatMap
            fun c => stlist.map fun d => setA d a c),
          ∀ p ∈ rest, lookupA d p.1 = none := by
        rw [hvals]
        intro d' hd' p hp
        rcases List.mem_flatMap.1 hd' with ⟨c, _, hdm⟩
        rcases List.mem_map.1 hdm with ⟨d, hds, rfl⟩
        have hne : a ≠ p.1 := fun h => hnd.1 (h ▸ List.mem_map_of_mem Prod.fst hp)
        rw [lookupA_setA_ne _ _ _ _ hne]
        exact hfresh d hds p (List.mem_cons_of_mem _ hp)
      rw [cAPSloop]
      rw [ih _ _ hnd.2 hw2 hfresh2 s]
      constructor
      · rintro ⟨d', hd', e, he, rfl⟩
        rw [hvals] at hd'
        rcases List.mem_flatMap.1 hd' with ⟨c, hc, hdm⟩
        rcases List.mem_map.1 hdm with ⟨d, hds, rfl⟩
        refine ⟨d, hds, (a, c) :: e, Choice.cons hc he, ?_⟩
        rw [setA_eq_append _ _ _ (hfa d hds)]
        simp
      · rintro ⟨d, hds, e', he', rfl⟩
        rcases (choice_cons_iff a op rest e').1 he' with ⟨c, hc, e, he, rfl⟩
        refine ⟨setA d a c, ?_, e, he, ?_⟩
        · rw [hvals]
          exact List.mem_flatMap.2 ⟨c, hc, List.mem_map.2 ⟨d, hds, rfl⟩⟩
        · rw [setA_eq_append _ _ _ (hfa d hds)]
          simp

theorem createAllPossibleSets_states (ad : List (String × AttVal))
    (ref : List (String × List String)) :
    (createAllPossibleSets ad ref).2.1
      = (cAPSloop ref ad [[]]).2.map List.toFinset := rfl

theorem createAllPossibleSets_oset (ad : List (String × AttVal))
    (ref : List (String × List String)) :
    (createAllPossibleSets ad ref).1 = ad.toFinset := rfl

theorem createAllPossibleSets_ad (ad : List (String × AttVal))
    (ref : List (String × List String)) :
    (createAllPossibleSets ad ref).2.2 = (cAPSloop ref ad [[]]).1 := rfl

theorem cAPSloop_state_keys (ref : List (String × List String)) :
    ∀ (ad : List (String × AttVal)) (stlist : List (List (String × String)))
      (P : String → Prop),
      (∀ p ∈ ref, P p.1) →
      (∀ d ∈ stlist, ∀ q ∈ d, P q.1) →
      ∀ d ∈ (cAPSloop ref ad stlist).2, ∀ q ∈ d, P q.1 := by
  induction ref with
  | nil => intro ad stlist P _ hst d hd q hq; exact hst d hd q hq
  | cons hd rest ih =>
      intro ad stlist P href hst d hdm q hq
      obtain ⟨a, op⟩ := hd
      rw [cAPSloop] at hdm
      refine ih _ _ P (fun p hp => href p (List.mem_cons_of_mem _ hp)) ?_ d hdm q hq
      intro d' hd' q' hq'
      rcases List.mem_flatMap.1 hd' with ⟨c, _, hdm2⟩
      rcases List.mem_map.1 hdm2 with ⟨d0, hd0, rfl⟩
      rcases mem_setA_cases d0 a c q' hq' with hin | heq
      · exact hst d0 hd0 q' hin
      · rw [heq]
        exact href (a, op) (List.mem_cons_self _ _)

/-- C3: expanding a spec in which every reference-domain attribute is
wildcarded (absent from the dictionary; in particular the empty spec)
yields exactly the product of the domain sizes many concrete full
states, pairwise distinct, and they are precisely all possible concrete
states over the domain (one legal value chosen per attribute). -/
theorem c3_wildcard_expansion_product (ad : List (String × AttVal))
    (ref : List (String × List String))
    (hnd : (ref.map Prod.fst).Nodup)
    (hops : ∀ p ∈ ref, p.2.Nodup)
    (hw : ∀ p ∈ ref, lookupA ad p.1 = none) :
    (createAllPossibleSets ad ref).2.1.length = (ref.map fun p => p.2.length).prod ∧
    (createAllPossibleSets ad ref).2.1.Nodup ∧
    (∀ s, s ∈ (createAllPossibleSets ad ref).2.1 ↔
      ∃ e, Choice ref e ∧ s = e.toFinset) := by
  have hfresh : ∀ d ∈ ([[]] : List (List (String × String))),
      ∀ p ∈ ref, lookupA d p.1 = none := by
    intro d hd p _
    rcases List.mem_singleton.1 hd with rfl
    rfl
  rw [createAllPossibleSets_states]
  refine ⟨?_, ?_, ?_⟩
  · rw [List.length_map, cAPSloop_length_wild ref ad [[]] hnd hw]
    simp
  · exact cAPSloop_nodup_wild ref ad [[]] hnd hops hw hfresh (by simp)
  · intro s
    rw [List.mem_map]
    constructor
    · rintro ⟨d, hd, rfl⟩
      rcases (cAPSloop_mem_wild ref ad [[]] hnd hw hfresh d).1 hd with ⟨d0, hd0, e, he, rfl⟩
      rcases List.mem_singleton.1 hd0 with rfl
      exact ⟨e, he, by simp⟩
    · rintro ⟨e, he, rfl⟩
      refine ⟨e, ?_, rfl⟩
      exact (cAPSloop_mem_wild ref ad [[]] hnd hw hfresh e).2
        ⟨[], List.mem_singleton_self _, e, he, by simp⟩

theorem c3_wildcard_expansion_product_witness :
    (((["S", "I", "R"], ["young", "old"]).1.length = 3) ∧
      ([("status", ["S", "I", "R"]), ("age", ["young", "old"])].map
          Prod.fst).Nodup ∧
      (∀ p ∈ [("status", ["S", "I", "R"]), ("age", ["young", "old"])], p.2.Nodup) ∧
      (∀ p ∈ [("status", ["S", "I", "R"]), ("age", ["young", "old"])],
        lookupA ([] : List (String × AttVal)) p.1 = none)) ∧
    ((createAllPossibleSets []
        [("status", ["S", "I", "R"]), ("age", ["young", "old"])]).2.1.length
      = ([("status", ["S", "I", "R"]), ("age", ["young", "old"])].map
          fun p => p.2.length).prod ∧
      (createAllPossibleSets []
        [("status", ["S", "I", "R"]), ("age", ["young", "old"])]).2.1.Nodup ∧
      (∀ s, s ∈ (createAllPossibleSets []
          [("status", ["S", "I", "R"]), ("age", ["young", "old"])]).2.1 ↔
        ∃ e, Choice [("status", ["S", "I", "R"]), ("age", ["young", "old"])] e ∧
          s = e.toFinset)) :=
  ⟨⟨by decide, by decide, by decide, by decide⟩,
    c3_wildcard_expansion_product []
      [("status", ["S", "I", "R"]), ("age", ["young", "old"])]
      (by decide) (by decide) (by decide)⟩

/-- C10: `_createAllPossibleSets` mutates the attribute dictionary
passed to it: afterwards every reference-domain attribute is present,
mapped to a tuple of values (a missing attribute filled in with the full
domain tuple, a bare value wrapped into a one-element tuple, an existing
tuple kept); bindings outside the domain are untouched; and the
aggregate key returned as first component is the frozen set of the
dictionary's items from before this mutation. -/
theorem c10_attdict_mutation (ad : List (String × AttVal))
    (ref : List (String × List String))
    (hnd : (ref.map Prod.fst).Nodup) :
    (createAllPossibleSets ad ref).1 = ad.toFinset ∧
    (∀ p ∈ ref, lookupA (createAllPossibleSets ad ref).2.2 p.1
      = some (AttVal.tup (normVals (lookupA ad p.1) p.2))) ∧
    (∀ b, b ∉ ref.map Prod.fst →
      lookupA (createAllPossibleSets ad ref).2.2 b = lookupA ad b) := by
  refine ⟨rfl, ?_, ?_⟩
  · intro p hp
    rw [createAllPossibleSets_ad]
    exact lookupA_cAPSloop_mem ref ad [[]] hnd p hp
  · intro b hb
    rw [createAllPossibleSets_ad]
    exact lookupA_cAPSloop_not_mem ref ad [[]] b hb

theorem c10_attdict_mutation_witness :
    (([("x", ["a", "b"]), ("y", ["c"])].map Prod.fst).Nodup ∧
      ((createAllPossibleSets [("x", AttVal.single ("a")), ("z", AttVal.tup ["q"])]
          [("x", ["a", "b"]), ("y", ["c"])]).1
        = [("x", AttVal.single ("a")), ("z", AttVal.tup ["q"])].toFinset ∧
      (∀ p ∈ [("x", ["a", "b"]), ("y", ["c"])],
        lookupA (createAllPossibleSets
            [("x", AttVal.single ("a")), ("z", AttVal.tup ["q"])]
            [("x", ["a", "b"]), ("y", ["c"])]).2.2 p.1
          = some (AttVal.tup
              (normVals (lookupA [("x", AttVal.single ("a")), ("z", AttVal.tup ["q"])] p.1)
                p.2))) ∧
      (∀ b, b ∉ [("x", ["a", "b"]), ("y", ["c"])].map Prod.fst →
        lookupA (createAllPossibleSets
            [("x", AttVal.single ("a")), ("z", AttVal.tup ["q"])]
            [("x", ["a", "b"]), ("y", ["c"])]).2.2 b
          = lookupA [("x", AttVal.single ("a")), ("z", AttVal.tup ["q"])] b))) :=
  ⟨by decide,
    c10_attdict_mutation [("x", AttVal.single ("a")), ("z", AttVal.tup ["q"])]
      [("x", ["a", "b"]), ("y", ["c"])] (by decide)⟩

/-- C7 counterexample: a spec whose attribute "foo" is not in the
reference domain is NOT rejected: the expansion returns normally (here
the two states of the one-attribute domain), and the unknown attribute
appears in no produced concrete state.  No error is raised at
configuration time, contradicting the claimed fail-fast behaviour. -/
theorem c7_no_failfast_counterexample :
    (createAllPossibleSets [("foo", AttVal.single ("X"))]
        [("status", ["S", "I"])]).2.1
      = [{("status", "S")}, {("status", "I")}] ∧
    ("foo", "X") ∉ ({("status", "S")} : Finset (String × String)) ∧
    ("foo", "X") ∉ ({("status", "I")} : Finset (String × String)) := by
  exact ⟨by decide, by decide, by decide⟩

/-- C7 amended: a spec attribute absent from the reference domain is
silently ignored rather than reported: every concrete state produced by
the expansion mentions only attributes of the reference domain, and the
expansion always returns normally (it is a total function; the unknown
attribute survives only inside the aggregate key). -/
theorem c7_unknown_attribute_ignored (ad : List (String × AttVal))
    (ref : List (String × List String)) :
    ∀ s ∈ (createAllPossibleSets ad ref).2.1, ∀ q ∈ s, q.1 ∈ ref.map Prod.fst := by
  intro s hs q hq
  rw [createAllPossibleSets_states] at hs
  rcases List.mem_map.1 hs with ⟨d, hd, rfl⟩
  rw [List.mem_toFinset] at hq
  refine cAPSloop_state_keys ref ad [[]] (fun b => b ∈ ref.map Prod.fst)
    (fun p hp => List.mem_map_of_mem Prod.fst hp) ?_ d hd q hq
  intro d0 hd0 q0 hq0
  rcases List.mem_singleton.1 hd0 with rfl
  simp at hq0

theorem c7_unknown_attribute_ignored_witness :
    (({("status", "S")} : Finset (String × String))
        ∈ (createAllPossibleSets [("foo", AttVal.single ("X"))]
            [("status", ["S", "I"])]).2.1 ∧
      ("status", "S") ∈ ({("status", "S")} : Finset (String × String))) ∧
    ("status", "S").1 ∈ [("status", ["S", "I"])].map Prod.fst :=
  ⟨⟨by decide, by decide⟩,
    c7_unknown_attribute_ignored [("foo", AttVal.single ("X"))]
      [("status", ["S", "I"])] {("status", "S")} (by decide)
      ("status", "S") (by decide)⟩

/-- Concrete rule table used to witness the rule-scan theorem: from
state `{status: S}` two rules, to `{status: I}` and to `{status: R}`,
both with unit rate. -/
def c2wRules : Finset (String × String) → List (List (String × String) × ℚ) :=
  fun s => if s = ({("status", "S")} : Finset (String × String))
    then [([("status", "I")], (1 : ℚ)), ([("status", "R")], 1)] else []

theorem c2_rule_scan_first_match_witness :
    (c2wRules ([("status", "S")] : List (String × String)).toFinset
        = ([("status", "I")], (1 : ℚ)) :: ([("status", "R")], (1 : ℚ)) :: [] ∧
      (0 : ℚ) < 1 * 1 ∧ (0 : ℚ) < 1 * 1 + 1 * 1) ∧
    nodeUpdateScripted c2wRules 0 1 [("status", "S")]
      = applyUpdate [("status", "S")] [("status", "I")] :=
  ⟨⟨by decide, mul_pos zero_lt_one zero_lt_one,
      add_pos (mul_pos zero_lt_one zero_lt_one) (mul_pos zero_lt_one zero_lt_one)⟩,
    (c2_rule_scan_first_match c2wRules 0 1 [("status", "S")]).2.2
      [("status", "I")] 1 [("status", "R")] 1 [] (by decide)
      (mul_pos zero_lt_one zero_lt_one)
      (add_pos (mul_pos zero_lt_one zero_lt_one) (mul_pos zero_lt_one zero_lt_one))⟩

/-! ### State-count maintenance in the stepping loop (`Simulation.execute`)

The write network's state-count and influx dictionaries, as updated by
the per-node loop of simulation.py lines 456-503 and, with the same
code, the per-edge loop of lines 506-521; both loops are embedded as one
entity loop generic in the entity type `α` and state-key type `σ`.  Each
leaf-state dictionary entry is a `LinkedCounter` whose listener list
contains only aggregate counters, so the `+= 1` / `-= 1` of a leaf entry
changes no other leaf entry; the leaf counters are therefore a pointwise
integer map `σ → ℤ`. -/

/-- State-count and influx dictionaries of the write network. -/
structure EntityCounts (σ : Type) where
  stateCount : σ → ℤ
  influx : σ → ℤ

/-- Counter update `counts[k] += d` of a single dictionary entry. -/
def bumpAt {σ : Type} [DecidableEq σ] (f : σ → ℤ) (k : σ) (d : ℤ) : σ → ℤ :=
  fun t => if t = k then f t + d else f t

theorem bumpAt_apply {σ : Type} [DecidableEq σ] (f : σ → ℤ) (k : σ) (d : ℤ) (t : σ) :
    bumpAt f k d t = f t + if t = k then d else 0 := by
  by_cases h : t = k <;> simp [bumpAt, h]

/-- Count update for one entity (simulation.py lines 457-503): deduce
the old state from the read entity, the new state from the updated
entity; on a state change increment the new state's counter, decrement
the old state's counter, and increment the new state's influx counter;
an entity whose deduced state is unchanged touches no counter. -/
def entityCountUpdate {α σ : Type} [DecidableEq σ]
    (deduce : α → σ) (upd : α → α) (cs : EntityCounts σ) (n : α) : EntityCounts σ :=
  let oldstate := deduce n
  let newstate := deduce (upd n)
  if newstate ≠ oldstate then
    { stateCount := bumpAt (bumpAt cs.stateCount newstate 1) oldstate (-1)
      influx := bumpAt cs.influx newstate 1 }
  else cs

/-- The per-iteration loop over all entities of the read network
(simulation.py `for n in readNetwork.nodes_iter(data = True)` and the
analogous edge loop), restricted to its effect on the write network's
counters. -/
def entityCountLoop {α σ : Type} [DecidableEq σ]
    (deduce : α → σ) (upd : α → α) (cs : EntityCounts σ) (es : List α) : EntityCounts σ :=
  es.foldl (entityCountUpdate deduce upd) cs

theorem sum_bumpAt {σ : Type} [DecidableEq σ] (S : Finset σ) (f : σ → ℤ) (k : σ) (d : ℤ) :
    ∑ s ∈ S, bumpAt f k d s = (∑ s ∈ S, f s) + if k ∈ S then d else 0 := by
  have h : ∀ s ∈ S, bumpAt f k d s = f s + if s = k then d else 0 :=
    fun s _ => bumpAt_apply f k d s
  rw [Finset.sum_congr rfl h, Finset.sum_add_distrib, Finset.sum_ite_eq' S k fun _ => d]

theorem sum_entityCountUpdate {α σ : Type} [DecidableEq σ]
    (deduce : α → σ) (upd : α → α) (cs : EntityCounts σ) (n : α) (S : Finset σ)
    (hold : deduce n ∈ S) (hnew : deduce (upd n) ∈ S) :
    ∑ s ∈ S, (entityCountUpdate deduce upd cs n).stateCount s
      = ∑ s ∈ S, cs.stateCount s := by
  unfold entityCountUpdate
  by_cases h : deduce (upd n) ≠ deduce n
  · rw [if_pos h]
    simp only
    rw [sum_bumpAt, sum_bumpAt, if_pos hold, if_pos hnew]
    ring
  · rw [if_neg h]

theorem sum_entityCountLoop {α σ : Type} [DecidableEq σ]
    (deduce : α → σ) (upd : α → α) (S : Finset σ) (es : List α)
    (htrack : ∀ n ∈ es, deduce n ∈ S ∧ deduce (upd n) ∈ S) :
    ∀ cs : EntityCounts σ,
      ∑ s ∈ S, (entityCountLoop deduce upd cs es).stateCount s
        = ∑ s ∈ S, cs.stateCount s := by
  induction es with
  | nil => intro cs; rfl
  | cons n rest ih =>
      intro cs
      have hn := htrack n (List.mem_cons_self _ _)
      rw [entityCountLoop, List.foldl_cons]
      have := ih (fun m hm => htrack m (List.mem_cons_of_mem _ hm))
        (entityCountUpdate deduce upd cs n)
      rw [entityCountLoop] at this
      rw [this, sum_entityCountUpdate deduce upd cs n S hn.1 hn.2]

/-- C1: over one iteration of the update loop, if every entity's old and
new deduced states are among the tracked leaf states `S` and the sum of
the leaf counters equals the entity count before the loop, then it still
does after the loop; moreover each entity whose deduced state changes
performs exactly one increment of the new state's counter and one
decrement of the old state's counter (all other leaf counters
untouched), and an entity whose deduced state is unchanged touches no
counter.  The loop is generic in the entity type, covering both the node
loop and the structurally identical edge loop of `Simulation.execute`. -/
theorem c1_leaf_counter_sum_invariant {α σ : Type} [DecidableEq σ]
    (deduce : α → σ) (upd : α → α) (cs : EntityCounts σ) (es : List α) (S : Finset σ)
    (htrack : ∀ n ∈ es, deduce n ∈ S ∧ deduce (upd n) ∈ S)
    (hinit : ∑ s ∈ S, cs.stateCount s = es.length) :
    (∑ s ∈ S, (entityCountLoop deduce upd cs es).stateCount s = es.length) ∧
    (∀ (cs' : EntityCounts σ) (n : α), deduce (upd n) = deduce n →
      entityCountUpdate deduce upd cs' n = cs') ∧
    (∀ (cs' : EntityCounts σ) (n : α), deduce (upd n) ≠ deduce n →
      ((entityCountUpdate deduce upd cs' n).stateCount (deduce (upd n))
          = cs'.stateCount (deduce (upd n)) + 1 ∧
        (entityCountUpdate deduce upd cs' n).stateCount (deduce n)
          = cs'.stateCount (deduce n) - 1 ∧
        ∀ t, t ≠ deduce (upd n) → t ≠ deduce n →
          (entityCountUpdate deduce upd cs' n).stateCount t = cs'.stateCount t)) := by
  refine ⟨?_, ?_, ?_⟩
  · rw [sum_entityCountLoop deduce upd S es htrack cs, hinit]
  · intro cs' n h
    unfold entityCountUpdate
    rw [if_neg (by simpa using h)]
  · intro cs' n h
    unfold entityCountUpdate
    rw [if_pos h]
    refine ⟨?_, ?_, ?_⟩
    · simp only
      rw [bumpAt_apply, bumpAt_apply, if_neg h, if_pos rfl]
      ring
    · simp only
      rw [bumpAt_apply, bumpAt_apply, if_pos rfl, if_neg (fun hh => h hh.symm)]
      ring
    · intro t ht1 ht2
      simp only
      rw [bumpAt_apply, bumpAt_apply, if_neg ht1, if_neg ht2]
      ring

theorem c1_leaf_counter_sum_invariant_witness :
    ((∀ n ∈ [0, 1, 2], (id n : Nat) ∈ ({0, 1, 2} : Finset Nat) ∧
        id ((fun m => if m = 0 then 1 else m) n) ∈ ({0, 1, 2} : Finset Nat)) ∧
      (∑ s ∈ ({0, 1, 2} : Finset Nat),
          (⟨fun s => if s ≤ 2 then 1 else 0, fun _ => 0⟩ : EntityCounts Nat).stateCount s
        = ([0, 1, 2] : List Nat).length)) ∧
    (∑ s ∈ ({0, 1, 2} : Finset Nat),
        (entityCountLoop id (fun m => if m = 0 then 1 else m)
          ⟨fun s => if s ≤ 2 then 1 else 0, fun _ => 0⟩ [0, 1, 2]).stateCount s
      = ([0, 1, 2] : List Nat).length) :=
  ⟨⟨by decide, by decide⟩,
    (c1_leaf_counter_sum_invariant id (fun m => if m = 0 then 1 else m)
      ⟨fun s => if s ≤ 2 then 1 else 0, fun _ => 0⟩ [0, 1, 2] {0, 1, 2}
      (by decide) (by decide)).1⟩

/-! ### Read/write network double buffering (`Simulation.execute`)

`Simulation.execute` iterates the nodes of the frozen read network,
passes the READ network to every `nodeUpdateRule` invocation
(simulation.py lines 456-461), and commits the resulting node, the
counter updates and the influx updates to the separate write network
(lines 462-499).  `ScriptedProcess.nodeUpdateRule` itself derives its
`MF` counters, its neighbour list, and its adjacency row from its
`srcNetwork` argument (process.py lines 1495-1502). -/

/-- A network snapshot: node identities, per-node attribute
dictionaries, adjacency, per-edge attribute dictionaries, the
state-count dictionary and the node count (`self._currentNetworkSize`). -/
structure Net where
  nodeIds : List Nat
  atts : Nat → List (String × String)
  adj : Nat → List Nat
  adjAtts : Nat → Nat → List (String × String)
  stateCount : Finset (String × String) → ℤ
  size : ℚ

/-- Embedding of `matchDictAttributes` (networkxtra/utils.py lines
126-151): every key of the query dictionary must be present in the
reference dictionary with an equal value. -/
def matchDictAttributes (vdict0 vdict1 : List (String × String)) : Bool :=
  vdict1.all fun p => lookupA vdict0 p.1 == some p.2

/-- Embedding of `entityCountDict` (networkxtra/utils.py lines 182-232):
the number of entities whose attribute dictionary matches the query. -/
def entityCountDict (l : List (Nat × List (String × String)))
    (attributeDict : List (String × String)) : Nat :=
  l.countP fun e => matchDictAttributes e.2 attributeDict

/-- Embedding of `neighbors_data_iter` (networkxtra/utils.py lines
29-57): the neighbours of `v` paired with their attribute dictionaries. -/
def neighborsData (net : Net) (v : Nat) : List (Nat × List (String × String)) :=
  (net.adj v).map fun u => (u, net.atts u)

/-- Embedding of `ScriptedProcess._NNlookup` (process.py lines
1527-1561): count the current node's neighbours matching the node spec,
optionally restricted to neighbours reached over an edge matching the
edge spec (the adjacency row `self._currentAdj`). -/
def NNlookup (net : Net) (v : Nat) (nodeSpec : List (String × String))
    (edgeSpec : Option (List (String × String))) : Nat :=
  match edgeSpec with
  | none => entityCountDict (neighborsData net v) nodeSpec
  | some ea => entityCountDict
      ((neighborsData net v).filter fun n => matchDictAttributes (net.adjAtts v n.1) ea)
      nodeSpec

/-- Embedding of `ScriptedProcess._MFlookup` (process.py lines
1564-1579): the state-count entry for exactly the given frozen-set spec
divided by the network size. -/
def MFlookup (net : Net) (a : List (String × String)) : ℚ :=
  (net.stateCount a.toFinset : ℚ) / net.size

/-- Rate expressions of the rule language: model parameters and
literals, `NN` with and without an edge filter, `MF`, and arithmetic.
The evaluation namespace binds `NN` and `MF` against the network the
process method received (process.py lines 1495-1502, 1266-1267). -/
inductive RateExpr
  | const (q : ℚ)
  | nn (nodeSpec : List (String × String))
  | nnE (nodeSpec edgeSpec : List (String × String))
  | mf (spec : List (String × String))
  | add (e1 e2 : RateExpr)
  | sub (e1 e2 : RateExpr)
  | mul (e1 e2 : RateExpr)

/-- Evaluation of a rate expression for node `v` against network `net`:
`NN` and `MF` resolve against `net`'s adjacency, attribute maps and
state counters only. -/
def evalRate (net : Net) (v : Nat) : RateExpr → ℚ
  | RateExpr.const q => q
  | RateExpr.nn s => (NNlookup net v s none : ℚ)
  | RateExpr.nnE s ea => (NNlookup net v s (some ea) : ℚ)
  | RateExpr.mf s => MFlookup net s
  | RateExpr.add a b => evalRate net v a + evalRate net v b
  | RateExpr.sub a b => evalRate net v a - evalRate net v b
  | RateExpr.mul a b => evalRate net v a * evalRate net v b

/-- `ScriptedProcess.nodeUpdateRule` against source network `net`: every
rule expression of the node's rule list is evaluated in the namespace
whose `NN` and `MF` are bound to `net`, and the first-match scan is run
with the node's sample `u`. -/
def scriptedNodeUpdate
    (rules : Finset (String × String) → List (List (String × String) × RateExpr))
    (net : Net) (u dt : ℚ) (n : Nat × List (String × String)) :
    List (String × String) :=
  nodeUpdateScripted (fun k => (rules k).map fun r => (r.1, evalRate net n.1 r.2)) u dt n.2

/-- The write network during an iteration: the nodes inserted so far
(`writeNetwork.add_node`) and its counter dictionaries. -/
structure WriteSt where
  written : Nat → Option (List (String × String))
  counts : EntityCounts (Finset (String × String))

/-- One node of the update loop of `Simulation.execute` (simulation.py
lines 456-503): run the process update for the read node against the
READ network, insert the result into the write network, and update the
write network's counters from the old and new deduced states. -/
def nodeIterStep
    (upd : Net → Nat × List (String × String) → List (String × String))
    (read : Net) (w : WriteSt) (n : Nat × List (String × String)) : WriteSt :=
  { written := fun u => if u = n.1 then some (upd read n) else w.written u
    counts := entityCountUpdate (fun m => m.2.toFinset)
      (fun m => (m.1, upd read m)) w.counts n }

/-- The whole per-iteration node pass, processing the read network's
nodes in the given order. -/
def nodeIterPass
    (upd : Net → Nat × List (String × String) → List (String × String))
    (read : Net) (w0 : WriteSt) (order : List (Nat × List (String × String))) : WriteSt :=
  order.foldl (nodeIterStep upd read) w0

theorem entityCounts_ext {σ : Type} (a b : EntityCounts σ)
    (h1 : a.stateCount = b.stateCount) (h2 : a.influx = b.influx) : a = b := by
  cases a
  cases b
  simp_all

theorem writeSt_ext (a b : WriteSt) (h1 : a.written = b.written)
    (h2 : a.counts = b.counts) : a = b := by
  cases a
  cases b
  simp_all

theorem entityCountUpdate_stateCount_apply {α σ : Type} [DecidableEq σ]
    (deduce : α → σ) (upd : α → α) (cs : EntityCounts σ) (n : α) (t : σ) :
    (entityCountUpdate deduce upd cs n).stateCount t
      = cs.stateCount t + (if deduce (upd n) = deduce n then 0 else
          (if t = deduce (upd n) then 1 else 0) + (if t = deduce n then -1 else 0)) := by
  unfold entityCountUpdate
  by_cases h : deduce (upd n) = deduce n
  · simp [h]
  · simp only [ne_eq, h, not_false_eq_true, if_true, if_neg h]
    rw [if_neg not_false, bumpAt_apply, bumpAt_apply]
    ring

theorem entityCountUpdate_influx_apply {α σ : Type} [DecidableEq σ]
    (deduce : α → σ) (upd : α → α) (cs : EntityCounts σ) (n : α) (t : σ) :
    (entityCountUpdate deduce upd cs n).influx t
      = cs.influx t + (if deduce (upd n) = deduce n then 0 else
          (if t = deduce (upd n) then 1 else 0)) := by
  unfold entityCountUpdate
  by_cases h : deduce (upd n) = deduce n
  · simp [h]
  · simp only [ne_eq, h, not_false_eq_true, if_true, if_neg h]
    rw [if_neg not_false, bumpAt_apply]

theorem entityCountUpdate_comm {α σ : Type} [DecidableEq σ]
    (deduce : α → σ) (upd : α → α) (cs : EntityCounts σ) (x y : α) :
    entityCountUpdate deduce upd (entityCountUpdate deduce upd cs x) y
      = entityCountUpdate deduce upd (entityCountUpdate deduce upd cs y) x := by
  refine entityCounts_ext _ _ (funext fun t => ?_) (funext fun t => ?_)
  · rw [entityCountUpdate_stateCount_apply, entityCountUpdate_stateCount_apply,
      entityCountUpdate_stateCount_apply, entityCountUpdate_stateCount_apply]
    ring
  · rw [entityCountUpdate_influx_apply, entityCountUpdate_influx_apply,
      entityCountUpdate_influx_apply, entityCountUpdate_influx_apply]
    ring

theorem nodeIterStep_comm
    (upd : Net → Nat × List (String × String) → List (String × String))
    (read : Net) (w : WriteSt) (x y : Nat × List (String × String))
    (hxy : x.1 ≠ y.1) :
    nodeIterStep upd read (nodeIterStep upd read w x) y
      = nodeIterStep upd read (nodeIterStep upd read w y) x := by
  refine writeSt_ext _ _ (funext fun u => ?_) ?_
  · show (if u = y.1 then some (upd read y)
        else if u = x.1 then some (upd read x) else w.written u)
      = (if u = x.1 then some (upd read x)
        else if u = y.1 then some (upd read y) else w.written u)
    by_cases h1 : u = x.1
    · have h2 : u ≠ y.1 := fun hh => hxy (h1.symm.trans hh)
      rw [if_neg h2, if_pos h1, if_pos h1]
    · by_cases h2 : u = y.1
      · rw [if_pos h2, if_neg h1, if_pos h2]
      · rw [if_neg h2, if_neg h1, if_neg h1, if_neg h2]
  · show entityCountUpdate (fun m => m.2.toFinset) (fun m => (m.1, upd read m))
        (entityCountUpdate (fun m => m.2.toFinset) (fun m => (m.1, upd read m))
          w.counts x) y
      = entityCountUpdate (fun m => m.2.toFinset) (fun m => (m.1, upd read m))
        (entityCountUpdate (fun m => m.2.toFinset) (fun m => (m.1, upd read m))
          w.counts y) x
    exact entityCountUpdate_comm _ _ w.counts x y

theorem nodeIterPass_written_frame
    (upd : Net → Nat × List (String × String) → List (String × String))
    (read : Net) :
    ∀ (order : List (Nat × List (String × String))) (w : WriteSt) (v : Nat),
      v ∉ order.map Prod.fst →
      (nodeIterPass upd read w order).written v = w.written v := by
  intro order
  induction order with
  | nil => intro w v _; rfl
  | cons m rest ih =>
      intro w v hv
      simp only [List.map_cons, List.mem_cons] at hv
      push_neg at hv
      rw [nodeIterPass, List.foldl_cons]
      have := ih (nodeIterStep upd read w m) v hv.2
      rw [nodeIterPass] at this
      rw [this]
      show (if v = m.1 then some (upd read m) else w.written v) = w.written v
      rw [if_neg hv.1]

theorem nodeIterPass_written
    (upd : Net → Nat × List (String × String) → List (String × String))
    (read : Net) :
    ∀ (order : List (Nat × List (String × String))) (w : WriteSt),
      (order.map Prod.fst).Nodup →
      ∀ n ∈ order, (nodeIterPass upd read w order).written n.1 = some (upd read n) := by
  intro order
  induction order with
  | nil => intro w _ n hn; simp at hn
  | cons m rest ih =>
      intro w hnd n hn
      simp only [List.map_cons, List.nodup_cons] at hnd
      rw [nodeIterPass, List.foldl_cons]
      rcases List.mem_cons.1 hn with rfl | hmem
      · have := nodeIterPass_written_frame upd read rest
          (nodeIterStep upd read w n) n.1 hnd.1
        rw [nodeIterPass] at this
        rw [this]
        show (if n.1 = n.1 then some (upd read n) else w.written n.1) = some (upd read n)
        rw [if_pos rfl]
      · exact ih (nodeIterStep upd read w m) hnd.2 n hmem

/-- C5: within one iteration no node update reads a value written
earlier in that iteration.  Every invocation receives the read network:
the attribute map committed for a node is `upd read n`, a function of
the read network and the node's read-state only, so processing in any
order (any permutation of the read network's node list) produces the
identical write network — node insertions, counter updates and influx
updates included.  Instantiating the update with the scripted process
rule, the `NN` and `MF` lookups inside the committed update are, by
`scriptedNodeUpdate` and `evalRate`, evaluated against the read
network's adjacency, attribute maps and counters only. -/
theorem c5_no_read_of_writes
    (upd : Net → Nat × List (String × String) → List (String × String))
    (read : Net) (w0 : WriteSt) (order : List (Nat × List (String × String)))
    (hnd : (order.map Prod.fst).Nodup) :
    (∀ n ∈ order, (nodeIterPass upd read w0 order).written n.1 = some (upd read n)) ∧
    (∀ order2, order.Perm order2 →
      nodeIterPass upd read w0 order = nodeIterPass upd read w0 order2) ∧
    (∀ (rules : Finset (String × String) →
          List (List (String × String) × RateExpr)) (u dt : ℚ),
      ∀ n ∈ order,
        (nodeIterPass (fun net m => scriptedNodeUpdate rules net u dt m)
            read w0 order).written n.1
          = some (scriptedNodeUpdate rules read u dt n)) := by
  refine ⟨nodeIterPass_written upd read order w0 hnd, ?_, ?_⟩
  · intro order2 hperm
    refine hperm.foldl_eq' ?_ w0
    intro x hx y hy z
    by_cases hxy : x = y
    · rw [hxy]
    · exact nodeIterStep_comm upd read z x y
        (fun h => hxy (List.inj_on_of_nodup_map hnd hx hy h))
  · intro rules u dt n hn
    exact nodeIterPass_written (fun net m => scriptedNodeUpdate rules net u dt m)
      read order w0 hnd n hn

/-- Concrete read network used to witness the double-buffering theorem. -/
def c5wNet : Net :=
  { nodeIds := [0, 1]
    atts := fun v => [("status", if v = 0 then ("I") else ("S"))]
    adj := fun v => if v = 0 then [1] else [0]
    adjAtts := fun _ _ => []
    stateCount := fun _ => 0
    size := 2 }

/-- Concrete node order used to witness the double-buffering theorem. -/
def c5wOrder : List (Nat × List (String × String)) :=
  [(0, [("status", "I")]), (1, [("status", "S")])]

/-- Empty write state used to witness the double-buffering theorem. -/
def c5wW0 : WriteSt :=
  { written := fun _ => none
    counts := { stateCount := fun _ => 0, influx := fun _ => 0 } }

/-- Identity node update used to witness the double-buffering theorem. -/
def c5wUpd : Net → Nat × List (String × String) → List (String × String) :=
  fun _ m => m.2

theorem c5_no_read_of_writes_witness :
    (c5wOrder.map Prod.fst).Nodup ∧
    ((∀ n ∈ c5wOrder,
        (nodeIterPass c5wUpd c5wNet c5wW0 c5wOrder).written n.1
          = some (c5wUpd c5wNet n)) ∧
      (∀ order2, c5wOrder.Perm order2 →
        nodeIterPass c5wUpd c5wNet c5wW0 c5wOrder
          = nodeIterPass c5wUpd c5wNet c5wW0 order2) ∧
      (∀ (rules : Finset (String × String) →
            List (List (String × String) × RateExpr)) (u dt : ℚ),
        ∀ n ∈ c5wOrder,
          (nodeIterPass (fun net m => scriptedNodeUpdate rules net u dt m)
              c5wNet c5wW0 c5wOrder).written n.1
            = some (scriptedNodeUpdate rules c5wNet u dt n))) :=
  ⟨by decide, c5_no_read_of_writes c5wUpd c5wNet c5wW0 c5wOrder (by decide)⟩

/-! ### Mean-field lookup and counter initialization

`ScriptedProcess._MFlookup` divides the tracked counter for exactly the
queried frozen-set spec by the network size.  The tracked leaf counter
is initialized in `ScriptedProcess.initializeNetwork` (process.py line
1326/1332) to `entityCountSet(network.nodes_iter(data=True), k)`.  In
`entityCountSet`'s matcher the accepted-values component is used with
the Python `in` operator, which is a substring test when the stored
value is a bare string and an equality-membership test on a tuple. -/

/-- Python `x in hay` for strings: substring containment. -/
def pyInStr (x hay : String) : Bool :=
  hay.data.tails.any fun t => x.data.isPrefixOf t

/-- Python `x in v` where `v` is a bare string (substring test) or a
tuple of values (membership by equality). -/
def pyInVal (x : String) : AttVal → Bool
  | AttVal.single v => pyInStr x v
  | AttVal.tup vs => vs.contains x

/-- Embedding of `matchSetAttributes` (networkxtra/utils.py lines
93-124): every item `(k, v)` of the set must have `k` present in the
dictionary with `vdict[k] in v`. -/
def matchSetAttributes (vdict : List (String × String))
    (vset : List (String × AttVal)) : Bool :=
  vset.all fun p =>
    match lookupA vdict p.1 with
    | none => false
    | some w => pyInVal w p.2

/-- Embedding of `entityCountSet` (networkxtra/utils.py lines 154-232):
the number of entities whose attribute dictionary matches the set. -/
def entityCountSet (l : List (Nat × List (String × String)))
    (attributeSet : List (String × AttVal)) : Nat :=
  l.countP fun e => matchSetAttributes e.2 attributeSet

/-- Initial value of a leaf state's `LinkedCounter`
(`LinkedCounter(nns, l)` with
`nns = entityCountSet(network.nodes_iter(data=True), k)`, process.py
lines 1326-1332); the leaf frozen set pairs each attribute with its bare
chosen value. -/
def initLeafCount (ns : List (Nat × List (String × String)))
    (leaf : List (String × String)) : ℤ :=
  (entityCountSet ns (leaf.map fun p => (p.1, AttVal.single p.2)) : ℤ)

/-- The 100-node scenario network's nodes: 40 in status S, 60 in status I. -/
def c6nodes : List (Nat × List (String × String)) :=
  (List.range 100).map fun i => (i, [("status", if i < 40 then ("S") else ("I"))])

/-- The 100-node scenario network with the S-leaf counter initialized
from `initLeafCount` and size 100. -/
def c6net : Net :=
  { nodeIds := List.range 100
    atts := fun v => [("status", if v < 40 then ("S") else ("I"))]
    adj := fun _ => []
    adjAtts := fun _ _ => []
    stateCount := fun k =>
      if k = ([("status", "S")] : List (String × String)).toFinset
        then initLeafCount c6nodes [("status", "S")] else 0
    size := 100 }

/-- C6: `MF(spec)` returns the tracked counter value for exactly that
spec (a dictionary lookup keyed by the frozen-set spec, no rescan)
divided by the total entity count; on the 100-node network with 40 nodes
in status S, the initialized S counter is 40, the size is the node count
100, and `MF({status: S})` returns exactly 2/5 = 0.4. -/
theorem c6_mean_field_exact :
    (∀ (net : Net) (a : List (String × String)),
      MFlookup net a = (net.stateCount a.toFinset : ℚ) / net.size) ∧
    initLeafCount c6nodes [("status", "S")] = 40 ∧
    (c6nodes.length = 100 ∧ c6net.size = 100) ∧
    MFlookup c6net [("status", "S")] = 2 / 5 := by
  have h40 : initLeafCount c6nodes [("status", "S")] = 40 := by decide
  refine ⟨fun net a => rfl, h40, ⟨by decide, rfl⟩, ?_⟩
  show ((if ([("status", "S")] : List (String × String)).toFinset
          = ([("status", "S")] : List (String × String)).toFinset
        then initLeafCount c6nodes [("status", "S")] else 0 : ℤ) : ℚ) / (100 : ℚ)
      = 2 / 5
  rw [if_pos rfl, h40]
  norm_num

/-! ### Timed state queries (`ScriptedTimedProcess._T0` and `_T`)

The node's attribute dictionary holds `_TimedState` values; `_T0(atts)`
is `numpy.max` of `[state[k].time if state[k] == atts[k] else now for k
in atts]`, and `_T(atts) = now - _T0(atts)`.  The `Option` results mark
the raising executions (`KeyError` on a missing attribute, `numpy.max`
of an empty sequence). -/

/-- One comprehension element of `_T0`: the stored timestamp when the
node's value equals the queried one, otherwise the current time; `none`
when the attribute is missing (`KeyError`). -/
def t0Contrib (state : List (String × TimedVal)) (now : ℚ) (p : String × String) :
    Option ℚ :=
  (lookupA state p.1).map fun tv => if tsEqBare tv p.2 then tv.time else now

/-- Sequence a list of optional values, failing if any element fails. -/
def seqOpts {γ : Type} : List (Option γ) → Option (List γ)
  | [] => some []
  | none :: _ => none
  | some x :: rest => (seqOpts rest).map fun xs => x :: xs

/-- Embedding of `ScriptedTimedProcess._T0` (process.py lines
1764-1784). -/
def T0v (state : List (String × TimedVal)) (now : ℚ)
    (atts : List (String × String)) : Option ℚ :=
  match seqOpts (atts.map (t0Contrib state now)) with
  | none => none
  | some [] => none
  | some (x :: xs) => some (xs.foldl max x)

/-- Embedding of `ScriptedTimedProcess._T` (process.py lines 1786-1802):
current time minus `_T0`. -/
def Tv (state : List (String × TimedVal)) (now : ℚ)
    (atts : List (String × String)) : Option ℚ :=
  (T0v state now atts).map fun t0 => now - t0

/-- Total form of one `_T0` comprehension element, used when every
queried attribute is present. -/
def t0Val (state : List (String × TimedVal)) (now : ℚ) (p : String × String) : ℚ :=
  match lookupA state p.1 with
  | some tv => if tsEqBare tv p.2 then tv.time else now
  | none => now

theorem t0Contrib_eq_some (state : List (String × TimedVal)) (now : ℚ)
    (p : String × String) (tv : TimedVal) (htv : lookupA state p.1 = some tv) :
    t0Contrib state now p = some (t0Val state now p) := by
  rw [t0Contrib, t0Val, htv]
  rfl

theorem seqOpts_map_some {β γ : Type} (l : List β) (g : β → Option γ) (f : β → γ)
    (h : ∀ b ∈ l, g b = some (f b)) : seqOpts (l.map g) = some (l.map f) := by
  induction l with
  | nil => rfl
  | cons b rest ih =>
      rw [List.map_cons, List.map_cons, h b (List.mem_cons_self _ _), seqOpts,
        ih fun x hx => h x (List.mem_cons_of_mem _ hx)]
      rfl

theorem le_foldl_max (l : List ℚ) :
    ∀ (x y : ℚ), (y = x ∨ y ∈ l) → y ≤ l.foldl max x := by
  induction l with
  | nil =>
      rintro x y (rfl | h)
      · exact le_refl y
      · simp at h
  | cons a l ih =>
      intro x y hy
      rw [List.foldl_cons]
      rcases hy with rfl | hy
      · exact le_trans (le_max_left y a) (ih (max y a) (max y a) (Or.inl rfl))
      · rcases List.mem_cons.1 hy with rfl | hm
        · exact le_trans (le_max_right x y) (ih (max x y) (max x y) (Or.inl rfl))
        · exact ih (max x a) y (Or.inr hm)

theorem foldl_max_mem (l : List ℚ) :
    ∀ x : ℚ, l.foldl max x = x ∨ l.foldl max x ∈ l := by
  induction l with
  | nil => intro x; exact Or.inl rfl
  | cons a l ih =>
      intro x
      rw [List.foldl_cons]
      rcases ih (max x a) with h | h
      · rcases max_choice x a with hm | hm
        · exact Or.inl (h.trans hm)
        · rw [h, hm]
          exact Or.inr (List.mem_cons_self _ _)
      · exact Or.inr (List.mem_cons_of_mem _ h)

/-- C8: with every queried attribute present, a nonempty query, and all
stored timestamps no later than the current time: `T` equals current
time minus `T0`; when the node currently holds every listed attribute
value, `T0` returns the latest (maximum) stored assignment timestamp
among the listed attributes; when the node is not currently in some
listed attribute value, `T0` returns the current time and hence `T`
returns `0`. -/
theorem c8_timed_queries (state : List (String × TimedVal)) (now : ℚ)
    (atts : List (String × String))
    (hne : atts ≠ [])
    (hkeys : ∀ p ∈ atts, ∃ tv, lookupA state p.1 = some tv)
    (hpast : ∀ p ∈ atts, ∀ tv, lookupA state p.1 = some tv → tv.time ≤ now) :
    (Tv state now atts = (T0v state now atts).map fun t0 => now - t0) ∧
    ((∀ p ∈ atts, ∀ tv, lookupA state p.1 = some tv → tsEqBare tv p.2 = true) →
      ∃ m, T0v state now atts = some m ∧
        (∀ p ∈ atts, ∀ tv, lookupA state p.1 = some tv → tv.time ≤ m) ∧
        (∃ p ∈ atts, ∃ tv, lookupA state p.1 = some tv ∧ tv.time = m)) ∧
    ((∃ p ∈ atts, ∀ tv, lookupA state p.1 = some tv → tsEqBare tv p.2 = false) →
      T0v state now atts = some now ∧ Tv state now atts = some 0) := by
  have hcon : ∀ p ∈ atts, t0Contrib state now p = some (t0Val state now p) := by
    intro p hp
    obtain ⟨tv, htv⟩ := hkeys p hp
    exact t0Contrib_eq_some state now p tv htv
  have hseq := seqOpts_map_some atts (t0Contrib state now) (t0Val state now) hcon
  obtain ⟨q, qs, rfl⟩ : ∃ q qs, atts = q :: qs := by
    cases atts with
    | nil => exact absurd rfl hne
    | cons q qs => exact ⟨q, qs, rfl⟩
  have hT0 : T0v state now (q :: qs)
      = some ((qs.map (t0Val state now)).foldl max (t0Val state now q)) := by
    unfold T0v
    rw [hseq, List.map_cons]
  refine ⟨rfl, ?_, ?_⟩
  · intro hin
    have hval : ∀ p ∈ q :: qs, ∀ tv, lookupA state p.1 = some tv →
        t0Val state now p = tv.time := by
      intro p hp tv htv
      rw [t0Val, htv]
      show (if tsEqBare tv p.2 = true then tv.time else now) = tv.time
      rw [if_pos (hin p hp tv htv)]
    refine ⟨_, hT0, ?_, ?_⟩
    · intro p hp tv htv
      rw [← hval p hp tv htv]
      rcases List.mem_cons.1 hp with rfl | hm
      · exact le_foldl_max _ _ _ (Or.inl rfl)
      · exact le_foldl_max _ _ _ (Or.inr (List.mem_map_of_mem _ hm))
    · rcases foldl_max_mem (qs.map (t0Val state now)) (t0Val state now q) with h | h
      · obtain ⟨tv, htv⟩ := hkeys q (List.mem_cons_self _ _)
        refine ⟨q, List.mem_cons_self _ _, tv, htv, ?_⟩
        rw [h, hval q (List.mem_cons_self _ _) tv htv]
      · rcases List.mem_map.1 h with ⟨p, hpm, hpv⟩
        obtain ⟨tv, htv⟩ := hkeys p (List.mem_cons_of_mem _ hpm)
        refine ⟨p, List.mem_cons_of_mem _ hpm, tv, htv, ?_⟩
        rw [← hpv, hval p (List.mem_cons_of_mem _ hpm) tv htv]
  · intro hout
    have hub : ∀ p ∈ q :: qs, t0Val state now p ≤ now := by
      intro p hp
      obtain ⟨tv, htv⟩ := hkeys p hp
      rw [t0Val, htv]
      show (if tsEqBare tv p.2 = true then tv.time else now) ≤ now
      by_cases hb : tsEqBare tv p.2 = true
      · rw [if_pos hb]
        exact hpast p hp tv htv
      · rw [if_neg hb]
    have hmle : (qs.map (t0Val state now)).foldl max (t0Val state now q) ≤ now := by
      rcases foldl_max_mem (qs.map (t0Val state now)) (t0Val state now q) with h | h
      · rw [h]
        exact hub q (List.mem_cons_self _ _)
      · rcases List.mem_map.1 h with ⟨p, hpm, hpv⟩
        rw [← hpv]
        exact hub p (List.mem_cons_of_mem _ hpm)
    have hnlem : now ≤ (qs.map (t0Val state now)).foldl max (t0Val state now q) := by
      obtain ⟨p0, hp0, hfalse⟩ := hout
      obtain ⟨tv0, htv0⟩ := hkeys p0 hp0
      have hp0v : t0Val state now p0 = now := by
        rw [t0Val, htv0]
        show (if tsEqBare tv0 p0.2 = true then tv0.time else now) = now
        rw [if_neg (by rw [hfalse tv0 htv0]; exact Bool.false_ne_true)]
      have hle : t0Val state now p0
          ≤ (qs.map (t0Val state now)).foldl max (t0Val state now q) := by
        rcases List.mem_cons.1 hp0 with rfl | hm
        · exact le_foldl_max _ _ _ (Or.inl rfl)
        · exact le_foldl_max _ _ _ (Or.inr (List.mem_map_of_mem _ hm))
      calc now = t0Val state now p0 := hp0v.symm
        _ ≤ _ := hle
    have hmeq : (qs.map (t0Val state now)).foldl max (t0Val state now q) = now :=
      le_antisymm hmle hnlem
    have hT0n : T0v state now (q :: qs) = some now := by rw [hT0, hmeq]
    refine ⟨hT0n, ?_⟩
    rw [Tv, hT0n]
    simp

/-- Node state used to witness the timed-query theorem: status S stamped
at time 2, flag on stamped at time 3. -/
def c8wState : List (String × TimedVal) :=
  [("status", ⟨"S", 2⟩), ("flag", ⟨"on", 3⟩)]

/-- Query used to witness the timed-query theorem. -/
def c8wAtts : List (String × String) :=
  [("status", "S"), ("flag", "on")]

theorem c8_timed_queries_witness :
    (c8wAtts ≠ [] ∧
      (∀ p ∈ c8wAtts, ∃ tv, lookupA c8wState p.1 = some tv) ∧
      (∀ p ∈ c8wAtts, ∀ tv, lookupA c8wState p.1 = some tv → tv.time ≤ 5)) ∧
    ((Tv c8wState 5 c8wAtts = (T0v c8wState 5 c8wAtts).map fun t0 => (5 : ℚ) - t0) ∧
      ((∀ p ∈ c8wAtts, ∀ tv, lookupA c8wState p.1 = some tv →
          tsEqBare tv p.2 = true) →
        ∃ m, T0v c8wState 5 c8wAtts = some m ∧
          (∀ p ∈ c8wAtts, ∀ tv, lookupA c8wState p.1 = some tv → tv.time ≤ m) ∧
          (∃ p ∈ c8wAtts, ∃ tv, lookupA c8wState p.1 = some tv ∧ tv.time = m)) ∧
      ((∃ p ∈ c8wAtts, ∀ tv, lookupA c8wState p.1 = some tv →
          tsEqBare tv p.2 = false) →
        T0v c8wState 5 c8wAtts = some 5 ∧ Tv c8wState 5 c8wAtts = some 0)) :=
  ⟨⟨by decide,
    by
      intro p hp
      rcases List.mem_cons.1 hp with rfl | hp2
      · exact ⟨⟨"S", 2⟩, rfl⟩
      · rcases List.mem_singleton.1 hp2 with rfl
        exact ⟨⟨"on", 3⟩, rfl⟩,
    by
      intro p hp tv htv
      rcases List.mem_cons.1 hp with rfl | hp2
      · have h2 : some ((⟨"S", 2⟩ : TimedVal)) = some tv := htv
        injection h2 with h3
        rw [← h3]
        decide
      · rcases List.mem_singleton.1 hp2 with rfl
        have h2 : some ((⟨"on", 3⟩ : TimedVal)) = some tv := htv
        injection h2 with h3
        rw [← h3]
        decide⟩,
    c8_timed_queries c8wState 5 c8wAtts (by decide)
      (by
        intro p hp
        rcases List.mem_cons.1 hp with rfl | hp2
        · exact ⟨⟨"S", 2⟩, rfl⟩
        · rcases List.mem_singleton.1 hp2 with rfl
          exact ⟨⟨"on", 3⟩, rfl⟩)
      (by
        intro p hp tv htv
        rcases List.mem_cons.1 hp with rfl | hp2
        · have h2 : some ((⟨"S", 2⟩ : TimedVal)) = some tv := htv
          injection h2 with h3
          rw [← h3]
          decide
        · rcases List.mem_singleton.1 hp2 with rfl
          have h2 : some ((⟨"on", 3⟩ : TimedVal)) = some tv := htv
          injection h2 with h3
          rw [← h3]
          decide)⟩

end NepidemiX
